import Mathlib

/-!
Verification of the go-domain-suffix-trie repository.

The Go sources are shallowly embedded as follows:

* Go strings are modelled as their character lists (`GoStr`), so that
  `strings.Split(s, ".")` and `strings.Join(ls, ".")` can be given as
  structurally recursive Lean functions (`splitDot`, `joinDot`).
* The unsynchronized trie core (`DomainSuffixTrieNode` in
  domain_suffix_tree.go) is embedded as an inductive tree whose children
  map is an association list (Go map semantics: lookup by key, assignment
  replaces).  The zero value of the generic payload type `T` is modelled
  as `none : Option T`, the "absent value" sentinel.
* Because a Go `FindMatchDomainSuffixNode` call returns a pointer into the
  tree, the functional embedding of the search returns, next to the matched
  subtree, the label path from the receiver down to the matched node; this
  path is exactly the parent-chain information that `GetNodeTriePath`
  reads off the returned pointer.
* For the claims about reference aliasing (defensive copies, in-place
  `SetPayload`) a second, heap-based embedding is given: nodes and map
  objects live in explicit stores and are addressed by indices, mirroring
  Go pointers and map references.
* The locking discipline of sync_domain_suffix_tree.go is embedded as the
  list of lock events each public wrapper method performs, transcribed
  method by method from the source.
-/

set_option autoImplicit false

namespace DomainSuffixTrie

/-- Go strings, modelled as their character lists. -/
abbrev GoStr := List Char

/-- Models `strings.Split(s, ".")` from the Go standard library: splitting
the empty string yields `[""]`, and each `'.'` separates two (possibly
empty) labels. -/
def splitDot : GoStr → List GoStr
  | [] => [[]]
  | c :: rest =>
    match splitDot rest with
    | [] => [[]]
    | l :: ls => if c = '.' then [] :: l :: ls else (c :: l) :: ls

/-- Models `strings.Join(ls, ".")` from the Go standard library. -/
def joinDot : List GoStr → GoStr
  | [] => []
  | [l] => l
  | l :: l2 :: ls => l ++ '.' :: joinDot (l2 :: ls)

/-- Lookup in a Go map keyed by strings (children maps), modelled on an
association list. -/
def assocGet {A : Type} : List (GoStr × A) → GoStr → Option A
  | [], _ => none
  | (k', v) :: rest, k => if k' = k then some v else assocGet rest k

/-- Assignment `m[k] = v` on a Go map, modelled on an association list:
the binding for `k` is replaced if present, appended otherwise. -/
def assocSet {A : Type} : List (GoStr × A) → GoStr → A → List (GoStr × A)
  | [], k, v => [(k, v)]
  | (k', v') :: rest, k, v =>
    if k' = k then (k, v) :: rest else (k', v') :: assocSet rest k v

/-- The trie node of domain_suffix_tree.go.  `children` is the
`ChildrenNodeMap`; the key under which a child is stored is its
`TrieValue` (the Go code maintains this in `addChild`).  `payload` is the
`Payload` field with the zero value of `T` modelled as `none`. -/
inductive DomainSuffixTrieNode (T : Type) : Type where
  | mk (payload : Option T) (children : List (GoStr × DomainSuffixTrieNode T))

/-- Models `GetPayload` (the `Payload` field). -/
def DomainSuffixTrieNode.payload {T : Type} : DomainSuffixTrieNode T → Option T
  | .mk p _ => p

/-- Models the `ChildrenNodeMap` field. -/
def DomainSuffixTrieNode.children {T : Type} :
    DomainSuffixTrieNode T → List (GoStr × DomainSuffixTrieNode T)
  | .mk _ cs => cs

/-- Models `NewDomainSuffixTrie`: a root with empty label, no children and
the absent payload. -/
def newDomainSuffixTrie (T : Type) : DomainSuffixTrieNode T := .mk none []

/-- Models `SetPayload` (the new payload unconditionally replaces the old
one; the Go method additionally returns the previous payload, which is
`x.payload` here). -/
def DomainSuffixTrieNode.setPayload {T : Type} (x : DomainSuffixTrieNode T) (p : T) :
    DomainSuffixTrieNode T :=
  .mk (some p) x.children

/-- The descending loop of `AddDomainSuffix`, applied to the label list
already reversed (the Go loop walks the split labels from the last index
to the first).  Existing children are descended into, missing ones are
created with an absent payload, and the payload is set on the final node. -/
def insertLabels {T : Type} : DomainSuffixTrieNode T → List GoStr → T → DomainSuffixTrieNode T
  | x, [], p => x.setPayload p
  | x, l :: rest, p =>
    match assocGet x.children l with
    | some node => .mk x.payload (assocSet x.children l (insertLabels node rest p))
    | none => .mk x.payload (assocSet x.children l (insertLabels (.mk none []) rest p))

/-- The single error value of errors.go. -/
inductive GoError : Type where
  | domainSuffixIsEmpty
deriving DecidableEq

/-- Models `AddDomainSuffix`: the empty suffix is rejected with
`DomainSuffixIsEmptyError` before any mutation; otherwise the suffix is
split on dots and the labels are walked from the last to the first.  The
result pairs the returned error with the state of the receiver tree after
the call. -/
def addDomainSuffix {T : Type} (x : DomainSuffixTrieNode T) (domainSuffix : GoStr)
    (payload : T) : Option GoError × DomainSuffixTrieNode T :=
  if domainSuffix = [] then (some .domainSuffixIsEmpty, x)
  else (none, insertLabels x (splitDot domainSuffix).reverse payload)

/-- The descending loop of `FindMatchDomainSuffixNode`, applied to the
reversed label list: descend while a matching child exists, return the
last node reached at the first miss.  The first component records the
labels actually consumed, i.e. the path from the receiver down to the
returned node (the information a Go caller recovers from the returned
pointer's parent chain). -/
def findLabels {T : Type} :
    DomainSuffixTrieNode T → List GoStr → List GoStr × DomainSuffixTrieNode T
  | x, [] => ([], x)
  | x, l :: rest =>
    match assocGet x.children l with
    | some node =>
      let r := findLabels node rest
      (l :: r.1, r.2)
    | none => ([], x)

/-- Models `FindMatchDomainSuffixNode`: split the query domain on dots and
walk the labels from the last to the first. -/
def findMatchDomainSuffixNode {T : Type} (x : DomainSuffixTrieNode T) (domain : GoStr) :
    List GoStr × DomainSuffixTrieNode T :=
  findLabels x (splitDot domain).reverse

/-- Models `FindMatchDomainSuffixPayload`: the payload of the matched node
(the node-returning form never yields a null node, so the nil branch of
the Go code is dead). -/
def findMatchDomainSuffixPayload {T : Type} (x : DomainSuffixTrieNode T) (domain : GoStr) :
    Option T :=
  (findMatchDomainSuffixNode x domain).2.payload

/-- Models `GetNodeTriePath` for the node sitting at `downPath` (labels
from the root down to the node): the Go loop collects `TrieValue`s
walking the parent chain upwards while the value is nonempty, then joins
them with dots.  Note the walk stops early at an empty intermediate
label, not only at the root. -/
def getNodeTriePath (downPath : List GoStr) : GoStr :=
  joinDot (downPath.reverse.takeWhile (fun l => !l.isEmpty))

/-- Specification helper (not in the Go source): the subtree sitting at a
label path, if the path exists structurally. -/
def nodeAt {T : Type} : DomainSuffixTrieNode T → List GoStr → Option (DomainSuffixTrieNode T)
  | x, [] => some x
  | x, l :: rest =>
    match assocGet x.children l with
    | some node => nodeAt node rest
    | none => none

/-- Specification helper: the payload of the node at a label path. -/
def payloadAt {T : Type} (x : DomainSuffixTrieNode T) (p : List GoStr) : Option (Option T) :=
  (nodeAt x p).map DomainSuffixTrieNode.payload

/-- Specification helper: a trie built by inserting a list of suffix/value
pairs into a fresh trie, in order. -/
def buildTrie {T : Type} (ss : List (GoStr × T)) : DomainSuffixTrieNode T :=
  ss.foldl (fun t sv => (addDomainSuffix t sv.1 sv.2).2) (newDomainSuffixTrie T)

/-- Heap embedding of a trie node: Go pointers and Go map references are
made explicit so that aliasing becomes observable.  `parentRef` and
`childrenRef` are indices into the heap's node store and map store. -/
structure HNode (T : Type) : Type where
  trieValue : GoStr
  parentRef : Option Nat
  childrenRef : Nat
  payload : Option T

instance {T : Type} : Inhabited (HNode T) := ⟨⟨[], none, 0, none⟩⟩

/-- Heap for the reference-level embedding: a store of node objects and a
store of children-map objects, both addressed by index. -/
structure Heap (T : Type) : Type where
  nodes : List (HNode T)
  maps : List (List (GoStr × Nat))

/-- Dereference a node pointer. -/
def getNode {T : Type} (h : Heap T) (r : Nat) : HNode T := h.nodes.getD r default

/-- Dereference a map reference. -/
def getMap {T : Type} (h : Heap T) (m : Nat) : List (GoStr × Nat) := h.maps.getD m []

/-- Lookup in the map object `m` (a Go `node.ChildrenNodeMap[k]` read). -/
def mapLookup {T : Type} (h : Heap T) (m : Nat) (k : GoStr) : Option Nat :=
  assocGet (getMap h m) k

/-- Assignment `m[k] = r` performed on the map object `m`, e.g. by a
caller writing through a map value it was handed. -/
def hMapSet {T : Type} (h : Heap T) (m : Nat) (k : GoStr) (r : Nat) : Heap T :=
  { h with maps := h.maps.set m (assocSet (getMap h m) k r) }

/-- Models `SetPayload` called on the node object `r`: the node is updated
in place, every reference to it observes the new payload. -/
def hSetPayload {T : Type} (h : Heap T) (r : Nat) (v : T) : Heap T :=
  { h with nodes := h.nodes.set r { getNode h r with payload := some v } }

/-- Heap version of the `FindMatchDomainSuffixNode` loop: returns the
pointer of the matched node. -/
def hFindFrom {T : Type} (h : Heap T) : Nat → List GoStr → Nat
  | r, [] => r
  | r, l :: rest =>
    match mapLookup h (getNode h r).childrenRef l with
    | some c => hFindFrom h c rest
    | none => r

/-- Heap version of `FindMatchDomainSuffixNode`. -/
def hFindMatchDomainSuffixNode {T : Type} (h : Heap T) (r : Nat) (domain : GoStr) : Nat :=
  hFindFrom h r (splitDot domain).reverse

/-- Heap version of `FindMatchDomainSuffixPayload`. -/
def hFindMatchDomainSuffixPayload {T : Type} (h : Heap T) (r : Nat) (domain : GoStr) :
    Option T :=
  (getNode h (hFindMatchDomainSuffixNode h r domain)).payload

/-- Heap version of the `AddDomainSuffix` loop: descend while the child
exists; otherwise allocate a fresh node with a fresh empty children map,
link it into the current node's map, and descend into it. -/
def hInsertFrom {T : Type} : Heap T → Nat → List GoStr → T → Heap T
  | h, r, [], v => hSetPayload h r v
  | h, r, l :: rest, v =>
    match mapLookup h (getNode h r).childrenRef l with
    | some c => hInsertFrom h c rest v
    | none =>
      let mref := h.maps.length
      let nref := h.nodes.length
      let h1 : Heap T :=
        { nodes := h.nodes ++ [⟨l, some r, mref, none⟩], maps := h.maps ++ [[]] }
      let h2 := hMapSet h1 (getNode h1 r).childrenRef l nref
      hInsertFrom h2 nref rest v

/-- Heap version of `AddDomainSuffix` called on the node `r`. -/
def hAddDomainSuffix {T : Type} (h : Heap T) (r : Nat) (s : GoStr) (v : T) :
    Option GoError × Heap T :=
  if s = [] then (some .domainSuffixIsEmpty, h)
  else (none, hInsertFrom h r (splitDot s).reverse v)

/-- Heap version of `NewDomainSuffixTrie`: one root node with an empty
label and a fresh empty children map; the root pointer is 0. -/
def hNewTrie (T : Type) : Heap T := { nodes := [⟨[], none, 0, none⟩], maps := [[]] }

/-- Models the core `GetChildrenNodeMap` of domain_suffix_tree.go: a fresh
map object is allocated, the entries of the node's children map are
copied into it, and its reference is returned. -/
def hGetChildrenNodeMapCore {T : Type} (h : Heap T) (r : Nat) : Heap T × Nat :=
  ({ h with maps := h.maps ++ [getMap h (getNode h r).childrenRef] }, h.maps.length)

/-- Models the wrapper `GetChildrenNodeMap` of sync_domain_suffix_tree.go:
the node's own children map reference is returned directly, no copy is
allocated. -/
def hGetChildrenNodeMapSync {T : Type} (h : Heap T) (r : Nat) : Nat :=
  (getNode h r).childrenRef

/-- Lock modes of a `sync.RWMutex`. -/
inductive LockMode : Type where
  | readMode
  | writeMode
deriving DecidableEq

/-- Lock operations a wrapper method performs on the wrapper's RWMutex:
`RLock`/`Lock` acquire in read/write mode, the deferred
`RUnlock`/`Unlock` release on return. -/
inductive LockEvent : Type where
  | acquire (m : LockMode)
  | release (m : LockMode)
deriving DecidableEq

/-- Acquire then release in the given mode: the event trace of a method
that locks around its delegation to the core. -/
def lockPattern (m : LockMode) : List LockEvent := [.acquire m, .release m]

/-- The public methods of `SyncDomainSuffixTrieNode`, each paired with
the lock events its body performs, transcribed method by method from
sync_domain_suffix_tree.go.  Every method is `lock-acquire, delegate to
the core, deferred release`, except `GetNodeTriePath`, whose body walks
the parent chain with no lock call at all. -/
def syncPublicMethods : List (String × List LockEvent) :=
  [("FindMatchDomainSuffixPayload", lockPattern .readMode),
   ("FindMatchDomainSuffixNode", lockPattern .readMode),
   ("AddDomainSuffix", lockPattern .writeMode),
   ("GetPayload", lockPattern .readMode),
   ("SetPayload", lockPattern .writeMode),
   ("GetChildNode", lockPattern .readMode),
   ("GetChildrenNodeMap", lockPattern .readMode),
   ("GetNodeTriePath", []),
   ("GetNodeTrieValue", lockPattern .readMode)]

theorem splitDot_ne_nil (s : GoStr) : splitDot s ≠ [] := by
  cases s with
  | nil => simp [splitDot]
  | cons c rest =>
    simp only [splitDot]
    cases h : splitDot rest with
    | nil => simp
    | cons l ls =>
      by_cases hc : c = '.' <;> simp [hc]

/-- Splitting on dots and joining with dots round-trips: this is the fact
that makes the trie paths faithfully encode the inserted suffix strings. -/
theorem joinDot_splitDot (s : GoStr) : joinDot (splitDot s) = s := by
  induction s with
  | nil => rfl
  | cons c rest ih =>
    cases h : splitDot rest with
    | nil => exact absurd h (splitDot_ne_nil rest)
    | cons l ls =>
      rw [h] at ih
      by_cases hc : c = '.'
      · simp only [splitDot, h, hc, if_pos rfl]
        simpa [joinDot] using congrArg (fun t => '.' :: t) ih
      · simp only [splitDot, h, if_neg hc]
        cases ls with
        | nil => simpa [joinDot] using congrArg (fun t => c :: t) ih
        | cons l2 ls2 => simpa [joinDot] using congrArg (fun t => c :: t) ih

theorem splitDot_injective : Function.Injective splitDot := by
  intro s t h
  rw [← joinDot_splitDot s, ← joinDot_splitDot t, h]

theorem assocGet_assocSet {A : Type} (m : List (GoStr × A)) (k k' : GoStr) (v : A) :
    assocGet (assocSet m k v) k' = if k = k' then some v else assocGet m k' := by
  induction m with
  | nil =>
    by_cases h : k = k' <;> simp [assocSet, assocGet, h]
  | cons p rest ih =>
    obtain ⟨k0, v0⟩ := p
    by_cases h0 : k0 = k
    · subst h0
      by_cases h : k0 = k' <;> simp [assocSet, assocGet, h]
    · by_cases h : k0 = k'
      · subst h
        have hkk : ¬ k = k0 := fun he => h0 he.symm
        simp [assocSet, assocGet, h0, hkk]
      · simp [assocSet, assocGet, h0, h, ih]

@[simp] theorem payload_mk {T : Type} (p : Option T)
    (cs : List (GoStr × DomainSuffixTrieNode T)) :
    (DomainSuffixTrieNode.mk p cs).payload = p := rfl

@[simp] theorem children_mk {T : Type} (p : Option T)
    (cs : List (GoStr × DomainSuffixTrieNode T)) :
    (DomainSuffixTrieNode.mk p cs).children = cs := rfl

@[simp] theorem nodeAt_nil {T : Type} (t : DomainSuffixTrieNode T) : nodeAt t [] = some t := rfl

theorem nodeAt_cons_some {T : Type} {t c : DomainSuffixTrieNode T} {l : GoStr}
    (hc : assocGet t.children l = some c) (rest : List GoStr) :
    nodeAt t (l :: rest) = nodeAt c rest := by
  simp only [nodeAt, hc]

theorem nodeAt_cons_none {T : Type} {t : DomainSuffixTrieNode T} {l : GoStr}
    (hc : assocGet t.children l = none) (rest : List GoStr) :
    nodeAt t (l :: rest) = none := by
  simp only [nodeAt, hc]

theorem nodeAt_cons_congr {T : Type} {t t' : DomainSuffixTrieNode T} {l : GoStr}
    (h : assocGet t.children l = assocGet t'.children l) (rest : List GoStr) :
    nodeAt t (l :: rest) = nodeAt t' (l :: rest) := by
  simp only [nodeAt, h]

@[simp] theorem payloadAt_nil {T : Type} (t : DomainSuffixTrieNode T) :
    payloadAt t [] = some t.payload := rfl

theorem payloadAt_cons_some {T : Type} {t c : DomainSuffixTrieNode T} {l : GoStr}
    (hc : assocGet t.children l = some c) (rest : List GoStr) :
    payloadAt t (l :: rest) = payloadAt c rest := by
  simp only [payloadAt, nodeAt_cons_some hc]

theorem payloadAt_cons_none {T : Type} {t : DomainSuffixTrieNode T} {l : GoStr}
    (hc : assocGet t.children l = none) (rest : List GoStr) :
    payloadAt t (l :: rest) = none := by
  simp only [payloadAt, nodeAt_cons_none hc, Option.map_none']

/-- Full characterization of `insertLabels`: the payload of the target
path becomes the inserted value, already-existing nodes keep their
payloads, freshly created intermediate nodes carry the absent payload,
and no other node exists. -/
theorem payloadAt_insertLabels {T : Type} (p : List GoStr) :
    ∀ (t : DomainSuffixTrieNode T) (v : T) (q : List GoStr),
    payloadAt (insertLabels t p v) q =
      if q = p then some (some v)
      else if (nodeAt t q).isSome then payloadAt t q
      else if q <+: p then some (none : Option T) else none := by
  induction p with
  | nil =>
    intro t v q
    cases q with
    | nil => simp [insertLabels, DomainSuffixTrieNode.setPayload, payloadAt]
    | cons l qr =>
      have hch : assocGet (insertLabels t [] v).children l = assocGet t.children l := rfl
      have h1 : nodeAt (insertLabels t [] v) (l :: qr) = nodeAt t (l :: qr) :=
        nodeAt_cons_congr hch qr
      simp only [payloadAt, h1]
      by_cases hs : (nodeAt t (l :: qr)).isSome
      · simp [hs]
      · have hn : nodeAt t (l :: qr) = none := Option.not_isSome_iff_eq_none.mp hs
        simp [hs, hn]
  | cons l pr ih =>
    intro t v q
    cases hc : assocGet t.children l with
    | some child =>
      have hins : insertLabels t (l :: pr) v
          = .mk t.payload (assocSet t.children l (insertLabels child pr v)) := by
        simp only [insertLabels, hc]
      cases q with
      | nil => simp [hins, payloadAt]
      | cons l' qr =>
        by_cases hl : l = l'
        · subst hl
          have hget : assocGet (insertLabels t (l :: pr) v).children l
              = some (insertLabels child pr v) := by
            simp [hins, assocGet_assocSet]
          rw [payloadAt_cons_some hget, ih child v qr]
          simp only [nodeAt_cons_some hc, payloadAt_cons_some hc, List.cons.injEq,
            true_and, List.cons_prefix_cons, eq_self_iff_true]
        · have hget : assocGet (insertLabels t (l :: pr) v).children l'
              = assocGet t.children l' := by
            simp [hins, assocGet_assocSet, hl]
          have h1 : nodeAt (insertLabels t (l :: pr) v) (l' :: qr) = nodeAt t (l' :: qr) :=
            nodeAt_cons_congr hget qr
          have hnq : (l' :: qr) ≠ (l :: pr) := by
            intro he; injection he with he1 he2; exact hl he1.symm
          have hnp : ¬ ((l' :: qr) <+: (l :: pr)) := by
            intro he; exact hl ((List.cons_prefix_cons.mp he).1).symm
          simp only [payloadAt, h1, if_neg hnq, if_neg hnp]
          by_cases hs : (nodeAt t (l' :: qr)).isSome
          · simp [hs, payloadAt]
          · have hn : nodeAt t (l' :: qr) = none := Option.not_isSome_iff_eq_none.mp hs
            simp [hs, hn]
    | none =>
      have hins : insertLabels t (l :: pr) v
          = .mk t.payload (assocSet t.children l (insertLabels (.mk none []) pr v)) := by
        simp only [insertLabels, hc]
      cases q with
      | nil => simp [hins, payloadAt]
      | cons l' qr =>
        by_cases hl : l = l'
        · subst hl
          have hget : assocGet (insertLabels t (l :: pr) v).children l
              = some (insertLabels (.mk none []) pr v) := by
            simp [hins, assocGet_assocSet]
          rw [payloadAt_cons_some hget, ih (.mk none []) v qr]
          have hnone : nodeAt t (l :: qr) = none := nodeAt_cons_none hc qr
          cases qr with
          | nil =>
            simp [hnone, List.nil_prefix]
          | cons lq qr2 =>
            have h2 : nodeAt (DomainSuffixTrieNode.mk (none : Option T) []) (lq :: qr2)
                = none := by simp [nodeAt, assocGet]
            simp [hnone, h2, List.cons_prefix_cons]
        · have hget : assocGet (insertLabels t (l :: pr) v).children l'
              = assocGet t.children l' := by
            simp [hins, assocGet_assocSet, hl]
          have h1 : nodeAt (insertLabels t (l :: pr) v) (l' :: qr) = nodeAt t (l' :: qr) :=
            nodeAt_cons_congr hget qr
          have hnq : (l' :: qr) ≠ (l :: pr) := by
            intro he; injection he with he1 he2; exact hl he1.symm
          have hnp : ¬ ((l' :: qr) <+: (l :: pr)) := by
            intro he; exact hl ((List.cons_prefix_cons.mp he).1).symm
          simp only [payloadAt, h1, if_neg hnq, if_neg hnp]
          by_cases hs : (nodeAt t (l' :: qr)).isSome
          · simp [hs, payloadAt]
          · have hn : nodeAt t (l' :: qr) = none := Option.not_isSome_iff_eq_none.mp hs
            simp [hs, hn]

/-- Structural existence after an insertion: a path exists in the new tree
iff it existed before or is a prefix of the inserted path. -/
theorem nodeAt_isSome_insertLabels {T : Type} (p : List GoStr) (t : DomainSuffixTrieNode T)
    (v : T) (q : List GoStr) :
    (nodeAt (insertLabels t p v) q).isSome
      = ((nodeAt t q).isSome || decide (q <+: p)) := by
  have h := payloadAt_insertLabels p t v q
  have hiso : ∀ (x : DomainSuffixTrieNode T) (r : List GoStr),
      (payloadAt x r).isSome = (nodeAt x r).isSome := by
    intro x r; simp [payloadAt]
  by_cases h1 : q = p
  · subst h1
    have : (payloadAt (insertLabels t q v) q).isSome = true := by rw [h]; simp
    rw [hiso] at this
    simp [this, List.prefix_refl]
  · by_cases h2 : (nodeAt t q).isSome
    · have hpl : (payloadAt t q).isSome = true := by rw [hiso]; exact h2
      have : (payloadAt (insertLabels t p v) q).isSome = true := by
        rw [h]; simp [h1, h2, hpl]
      rw [hiso] at this
      simp [this, h2]
    · by_cases h3 : q <+: p
      · have : (payloadAt (insertLabels t p v) q).isSome = true := by
          rw [h]; simp [h1, h2, h3]
        rw [hiso] at this
        simp [this, h3]
      · have : (payloadAt (insertLabels t p v) q).isSome = false := by
          rw [h]; simp [h1, h2, h3]
        rw [hiso] at this
        simp [this, h2, h3]

/-- The path returned by the matching loop is a prefix of the query path. -/
theorem findLabels_isPre {T : Type} :
    ∀ (q : List GoStr) (t : DomainSuffixTrieNode T), (findLabels t q).1 <+: q := by
  intro q
  induction q with
  | nil => intro t; simp [findLabels]
  | cons l rest ih =>
    intro t
    cases hc : assocGet t.children l with
    | some c =>
      simp only [findLabels, hc]
      exact List.cons_prefix_cons.mpr ⟨rfl, ih c⟩
    | none =>
      simp only [findLabels, hc]
      exact List.nil_prefix

/-- The node returned by the matching loop really sits at the returned
path: the match result is always a node of the tree. -/
theorem nodeAt_findLabels {T : Type} :
    ∀ (q : List GoStr) (t : DomainSuffixTrieNode T),
    nodeAt t (findLabels t q).1 = some (findLabels t q).2 := by
  intro q
  induction q with
  | nil => intro t; simp [findLabels]
  | cons l rest ih =>
    intro t
    cases hc : assocGet t.children l with
    | some c =>
      simp only [findLabels, hc]
      rw [nodeAt_cons_some hc]
      exact ih c
    | none =>
      simp only [findLabels, hc, nodeAt_nil]

/-- Longest-match property of the matching loop: every structurally
existing prefix of the query path is a prefix of the returned path. -/
theorem findLabels_maximal {T : Type} :
    ∀ (q : List GoStr) (t : DomainSuffixTrieNode T) (p : List GoStr),
    p <+: q → (nodeAt t p).isSome → p <+: (findLabels t q).1 := by
  intro q
  induction q with
  | nil =>
    intro t p hp _
    rw [List.prefix_nil.mp hp]
    exact List.nil_prefix
  | cons l rest ih =>
    intro t p hp hs
    cases p with
    | nil => exact List.nil_prefix
    | cons lp ppr =>
      obtain ⟨hl, hpr⟩ := List.cons_prefix_cons.mp hp
      subst hl
      cases hc : assocGet t.children lp with
      | none => rw [nodeAt_cons_none hc] at hs; simp at hs
      | some c =>
        rw [nodeAt_cons_some hc] at hs
        simp only [findLabels, hc]
        exact List.cons_prefix_cons.mpr ⟨rfl, ih c ppr hpr hs⟩

/-- If the query path exists structurally, the matching loop returns
exactly that path and the node sitting there. -/
theorem findLabels_of_nodeAt {T : Type} {t n : DomainSuffixTrieNode T} {q : List GoStr}
    (h : nodeAt t q = some n) : findLabels t q = (q, n) := by
  have h1 : (findLabels t q).1 <+: q := findLabels_isPre q t
  have h2 : q <+: (findLabels t q).1 :=
    findLabels_maximal q t q List.prefix_rfl (by simp [h])
  have heq : (findLabels t q).1 = q :=
    h1.eq_of_length (Nat.le_antisymm h1.length_le h2.length_le)
  have h3 := nodeAt_findLabels q t
  rw [heq, h] at h3
  have h4 : (findLabels t q).2 = n := (Option.some.inj h3).symm
  calc findLabels t q = ((findLabels t q).1, (findLabels t q).2) := rfl
    _ = (q, n) := by rw [heq, h4]

theorem payloadAt_isSome {T : Type} (x : DomainSuffixTrieNode T) (r : List GoStr) :
    (payloadAt x r).isSome = (nodeAt x r).isSome := by
  simp [payloadAt]

theorem nodeAt_isSome_new {T : Type} (q : List GoStr) :
    (nodeAt (newDomainSuffixTrie T) q).isSome = decide (q = []) := by
  cases q with
  | nil => simp
  | cons l r =>
    rw [nodeAt_cons_none (by rfl) r]
    simp

theorem payload_of_findLabels {T : Type} (t : DomainSuffixTrieNode T) (q : List GoStr) :
    some ((findLabels t q).2.payload) = payloadAt t (findLabels t q).1 := by
  simp [payloadAt, nodeAt_findLabels]

/-- The matched path is determined by which paths exist structurally: two
trees with the same structure give the same matched path on every query. -/
theorem findLabels_path_congr {T : Type} (tA tB : DomainSuffixTrieNode T)
    (h : ∀ r : List GoStr, (nodeAt tA r).isSome = (nodeAt tB r).isSome) (q : List GoStr) :
    (findLabels tA q).1 = (findLabels tB q).1 := by
  have haq : (findLabels tA q).1 <+: q := findLabels_isPre q tA
  have hbq : (findLabels tB q).1 <+: q := findLabels_isPre q tB
  have haS : (nodeAt tA (findLabels tA q).1).isSome = true := by
    simp [nodeAt_findLabels]
  have hbS : (nodeAt tB (findLabels tB q).1).isSome = true := by
    simp [nodeAt_findLabels]
  have hab : (findLabels tA q).1 <+: (findLabels tB q).1 :=
    findLabels_maximal q tB _ haq (by rw [← h]; exact haS)
  have hba : (findLabels tB q).1 <+: (findLabels tA q).1 :=
    findLabels_maximal q tA _ hbq (by rw [h]; exact hbS)
  exact hab.eq_of_length (Nat.le_antisymm hab.length_le hba.length_le)

theorem payload_insertLabels_cons {T : Type} (t : DomainSuffixTrieNode T) (l : GoStr)
    (rest : List GoStr) (v : T) :
    (insertLabels t (l :: rest) v).payload = t.payload := by
  cases hc : assocGet t.children l <;> simp [insertLabels, hc]

/-- An insertion never touches the payload of the node it is called on
(the inserted path is never empty because splitting never yields an empty
label list). -/
theorem payload_addDomainSuffix {T : Type} (t : DomainSuffixTrieNode T) (s : GoStr) (v : T) :
    (addDomainSuffix t s v).2.payload = t.payload := by
  by_cases hs : s = []
  · simp [addDomainSuffix, hs]
  · simp only [addDomainSuffix, if_neg hs]
    cases hrev : (splitDot s).reverse with
    | nil =>
      exact absurd (List.reverse_eq_nil_iff.mp hrev) (splitDot_ne_nil s)
    | cons l r => exact payload_insertLabels_cons t l r v

/-- The root payload of any trie built by insertions stays absent. -/
theorem payload_buildTrie {T : Type} (ss : List (GoStr × T)) :
    (buildTrie ss).payload = none := by
  suffices h : ∀ (t : DomainSuffixTrieNode T),
      (ss.foldl (fun t sv => (addDomainSuffix t sv.1 sv.2).2) t).payload = t.payload by
    rw [buildTrie, h]; rfl
  induction ss with
  | nil => intro t; rfl
  | cons sv rest ih =>
    intro t
    rw [List.foldl_cons, ih, payload_addDomainSuffix]

/-- Insertions at distinct paths commute, observed through payloads. -/
theorem payloadAt_insert_insert_comm {T : Type} (t : DomainSuffixTrieNode T)
    (p1 p2 : List GoStr) (v1 v2 : T) (hp : p1 ≠ p2) (q : List GoStr) :
    payloadAt (insertLabels (insertLabels t p1 v1) p2 v2) q
      = payloadAt (insertLabels (insertLabels t p2 v2) p1 v1) q := by
  have hp' : p2 ≠ p1 := fun he => hp he.symm
  rw [payloadAt_insertLabels p2 (insertLabels t p1 v1) v2 q,
    payloadAt_insertLabels p1 (insertLabels t p2 v2) v1 q,
    nodeAt_isSome_insertLabels p1 t v1 q,
    nodeAt_isSome_insertLabels p2 t v2 q,
    payloadAt_insertLabels p1 t v1 q,
    payloadAt_insertLabels p2 t v2 q]
  by_cases h2 : q = p2
  · subst h2
    simp [hp', List.prefix_refl]
  · by_cases h1 : q = p1
    · subst h1
      simp [hp, List.prefix_refl]
    · by_cases hs : (nodeAt t q).isSome <;>
        by_cases ha : q <+: p1 <;>
          by_cases hb : q <+: p2 <;>
            simp [h1, h2, hs, ha, hb]

/-- Matching in a trie that contains exactly the chains `P1 <+: P2`: the
query path extending `P2` matches precisely the `P2` node, and that node
carries the payload of the second insertion. -/
theorem findLabels_two_inserts {T : Type} (P1 P2 Q : List GoStr) (v1 v2 : T)
    (hP : P1 <+: P2) (hQ : P2 <+: Q) :
    (findLabels (insertLabels (insertLabels (newDomainSuffixTrie T) P1 v1) P2 v2) Q).1 = P2
    ∧ (findLabels (insertLabels (insertLabels (newDomainSuffixTrie T) P1 v1) P2 v2) Q).2.payload
      = some v2 := by
  have hsome : ∀ x : List GoStr,
      (nodeAt (insertLabels (insertLabels (newDomainSuffixTrie T) P1 v1) P2 v2) x).isSome
        = decide (x <+: P2) := by
    intro x
    rw [nodeAt_isSome_insertLabels, nodeAt_isSome_insertLabels, nodeAt_isSome_new]
    by_cases hx2 : x <+: P2
    · simp [hx2]
    · have hx1 : ¬ x <+: P1 := fun hh => hx2 (hh.trans hP)
      have hxn : x ≠ [] := by
        intro he; subst he; exact hx2 (List.nil_prefix)
      simp [hx1, hx2, hxn]
  have hP2some : (nodeAt (insertLabels (insertLabels (newDomainSuffixTrie T) P1 v1) P2 v2)
      P2).isSome = true := by
    rw [hsome]; simp [List.prefix_refl]
  have hfS : (nodeAt (insertLabels (insertLabels (newDomainSuffixTrie T) P1 v1) P2 v2)
      (findLabels (insertLabels (insertLabels (newDomainSuffixTrie T) P1 v1) P2 v2) Q).1).isSome
      = true := by
    simp [nodeAt_findLabels]
  have hd : (findLabels (insertLabels (insertLabels (newDomainSuffixTrie T) P1 v1) P2 v2) Q).1
      <+: P2 := by
    rw [hsome] at hfS
    exact of_decide_eq_true hfS
  have he : P2 <+: (findLabels (insertLabels (insertLabels (newDomainSuffixTrie T) P1 v1) P2
      v2) Q).1 :=
    findLabels_maximal Q _ P2 hQ hP2some
  have hf1 : (findLabels (insertLabels (insertLabels (newDomainSuffixTrie T) P1 v1) P2 v2) Q).1
      = P2 :=
    hd.eq_of_length (Nat.le_antisymm hd.length_le he.length_le)
  refine ⟨hf1, ?_⟩
  have hv : payloadAt (insertLabels (insertLabels (newDomainSuffixTrie T) P1 v1) P2 v2) P2
      = some (some v2) := by
    rw [payloadAt_insertLabels]; simp
  have hpf := payload_of_findLabels
    (insertLabels (insertLabels (newDomainSuffixTrie T) P1 v1) P2 v2) Q
  rw [hf1, hv] at hpf
  exact Option.some.inj hpf

/-- C1 (longest match): insert a suffix `s1` and a suffix `s2` that
extends `s1` by additional labels on the left; on any query domain whose
trailing labels extend `s2`, the match returns the node at which `s2`'s
value was set — its path is `s2`'s reversed label chain, its payload is
`v2` — and that node is not the `s1` node (the paths differ). -/
theorem claim_C1_longest_match {T : Type} (s1 s2 q : GoStr) (v1 v2 : T)
    (ext qext : List GoStr)
    (h1 : s1 ≠ []) (h2 : s2 ≠ [])
    (hext : splitDot s2 = ext ++ splitDot s1) (hextne : ext ≠ [])
    (hq : splitDot q = qext ++ splitDot s2) :
    (findMatchDomainSuffixNode
        (addDomainSuffix (addDomainSuffix (newDomainSuffixTrie T) s1 v1).2 s2 v2).2 q).1
      = (splitDot s2).reverse
    ∧ (findMatchDomainSuffixNode
        (addDomainSuffix (addDomainSuffix (newDomainSuffixTrie T) s1 v1).2 s2 v2).2 q).2.payload
      = some v2
    ∧ (splitDot s2).reverse ≠ (splitDot s1).reverse := by
  have hP : (splitDot s1).reverse <+: (splitDot s2).reverse := by
    rw [hext, List.reverse_append]
    exact List.prefix_append _ _
  have hQ : (splitDot s2).reverse <+: (splitDot q).reverse := by
    rw [hq, List.reverse_append]
    exact List.prefix_append _ _
  have hmain := findLabels_two_inserts (T := T) (splitDot s1).reverse (splitDot s2).reverse
    (splitDot q).reverse v1 v2 hP hQ
  have hrw : (addDomainSuffix (addDomainSuffix (newDomainSuffixTrie T) s1 v1).2 s2 v2).2
      = insertLabels (insertLabels (newDomainSuffixTrie T) (splitDot s1).reverse v1)
          (splitDot s2).reverse v2 := by
    simp [addDomainSuffix, h1, h2]
  have hlen : ¬ (splitDot s2).reverse = (splitDot s1).reverse := by
    intro he
    have hl := congrArg List.length he
    rw [List.length_reverse, List.length_reverse, hext, List.length_append] at hl
    have : ext.length = 0 := by omega
    exact hextne (List.length_eq_zero.mp this)
  exact ⟨by rw [findMatchDomainSuffixNode, hrw]; exact hmain.1,
    by rw [findMatchDomainSuffixNode, hrw]; exact hmain.2, hlen⟩

/-- Witness for C1 at the spec's own example: suffixes google.com and
map.google.com, query x.map.google.com. -/
theorem claim_C1_longest_match_witness :
    (findMatchDomainSuffixNode
        (addDomainSuffix (addDomainSuffix (newDomainSuffixTrie String) "google.com".data
          "A").2 "map.google.com".data "B").2 "x.map.google.com".data).1
      = (splitDot "map.google.com".data).reverse
    ∧ (findMatchDomainSuffixNode
        (addDomainSuffix (addDomainSuffix (newDomainSuffixTrie String) "google.com".data
          "A").2 "map.google.com".data "B").2 "x.map.google.com".data).2.payload
      = some "B"
    ∧ (splitDot "map.google.com".data).reverse ≠ (splitDot "google.com".data).reverse :=
  claim_C1_longest_match "google.com".data "map.google.com".data "x.map.google.com".data
    "A" "B" ["map".data] ["x".data] (by decide) (by decide) (by decide) (by decide)
    (by decide)

/-- C2 (empty rejection, atomicity): inserting the empty suffix returns
`DomainSuffixIsEmptyError` and leaves the tree unchanged; inserting any
non-empty suffix returns no error, sets the value at the suffix's path,
and leaves the payload of every other pre-existing node untouched. -/
theorem claim_C2_empty_rejection_atomicity {T : Type} (t : DomainSuffixTrieNode T) (v : T)
    (s : GoStr) (hs : s ≠ []) :
    addDomainSuffix t [] v = (some GoError.domainSuffixIsEmpty, t)
    ∧ (addDomainSuffix t s v).1 = none
    ∧ payloadAt (addDomainSuffix t s v).2 (splitDot s).reverse = some (some v)
    ∧ ∀ q : List GoStr, q ≠ (splitDot s).reverse → (nodeAt t q).isSome →
        payloadAt (addDomainSuffix t s v).2 q = payloadAt t q := by
  refine ⟨by simp [addDomainSuffix], by simp [addDomainSuffix, hs], ?_, ?_⟩
  · simp only [addDomainSuffix, if_neg hs]
    rw [payloadAt_insertLabels]
    simp
  · intro q hq hsome
    simp only [addDomainSuffix, if_neg hs]
    rw [payloadAt_insertLabels]
    simp [hq, hsome]

/-- Witness for C2 on a fresh tree and the suffix a. -/
theorem claim_C2_empty_rejection_atomicity_witness :
    addDomainSuffix (newDomainSuffixTrie String) [] "X"
      = (some GoError.domainSuffixIsEmpty, newDomainSuffixTrie String)
    ∧ (addDomainSuffix (newDomainSuffixTrie String) "a".data "X").1 = none
    ∧ payloadAt (addDomainSuffix (newDomainSuffixTrie String) "a".data "X").2
        (splitDot "a".data).reverse = some (some "X")
    ∧ ∀ q : List GoStr, q ≠ (splitDot "a".data).reverse →
        (nodeAt (newDomainSuffixTrie String) q).isSome →
        payloadAt (addDomainSuffix (newDomainSuffixTrie String) "a".data "X").2 q
          = payloadAt (newDomainSuffixTrie String) q :=
  claim_C2_empty_rejection_atomicity (newDomainSuffixTrie String) "X" "a".data (by decide)

/-- C3 (total match, root fallback): the match never fails — the node it
returns always sits in the tree at the returned path — and when no
root-level child matches the query's rightmost label, the root itself is
returned, whose payload on any insertion-built trie is the absent
sentinel. -/
theorem claim_C3_match_total_root_fallback {T : Type} (ss : List (GoStr × T)) (q l : GoStr)
    (rest : List GoStr)
    (hsplit : (splitDot q).reverse = l :: rest)
    (hmiss : assocGet (buildTrie ss).children l = none) :
    findMatchDomainSuffixNode (buildTrie ss) q = ([], buildTrie ss)
    ∧ (buildTrie ss).payload = none
    ∧ ∀ (t : DomainSuffixTrieNode T) (q2 : GoStr),
        nodeAt t (findMatchDomainSuffixNode t q2).1
          = some (findMatchDomainSuffixNode t q2).2 := by
  refine ⟨?_, payload_buildTrie ss, ?_⟩
  · rw [findMatchDomainSuffixNode, hsplit]
    simp only [findLabels, hmiss]
  · intro t q2
    exact nodeAt_findLabels (splitDot q2).reverse t

/-- Witness for C3: one registered suffix, a query whose top-level label
org misses every root child (so in particular the empty query also falls
back to the root, whose payload is absent). -/
theorem claim_C3_match_total_root_fallback_witness :
    findMatchDomainSuffixNode (buildTrie [("google.com".data, "G")]) "x.org".data
      = ([], buildTrie [("google.com".data, "G")])
    ∧ (buildTrie [("google.com".data, "G")]).payload = none
    ∧ ∀ (t : DomainSuffixTrieNode String) (q2 : GoStr),
        nodeAt t (findMatchDomainSuffixNode t q2).1
          = some (findMatchDomainSuffixNode t q2).2 :=
  claim_C3_match_total_root_fallback [("google.com".data, "G")] "x.org".data "org".data
    ["x".data] (by decide) (by rfl)

/-- C4 (intermediate-node trap): inserting only api.google.com, a match
on foo.google.com returns the node at path com, google — the google node,
not the root — whose payload is the absent sentinel and whose
reconstructed path is google.com. -/
theorem claim_C4_intermediate_node_trap :
    (findMatchDomainSuffixNode
        (addDomainSuffix (newDomainSuffixTrie String) "api.google.com".data "X").2
        "foo.google.com".data).1 = ["com".data, "google".data]
    ∧ (findMatchDomainSuffixNode
        (addDomainSuffix (newDomainSuffixTrie String) "api.google.com".data "X").2
        "foo.google.com".data).2.payload = none
    ∧ ["com".data, "google".data] ≠ ([] : List GoStr)
    ∧ getNodeTriePath ["com".data, "google".data] = "google.com".data := by
  refine ⟨by decide, by decide, by decide, by decide⟩

/-- C5 (overwrite semantics): re-inserting the same non-empty suffix with
a second value raises no error on either insertion, and a match on the
suffix afterwards yields the second value. -/
theorem claim_C5_overwrite {T : Type} (t : DomainSuffixTrieNode T) (s : GoStr) (v1 v2 : T)
    (hs : s ≠ []) :
    (addDomainSuffix t s v1).1 = none
    ∧ (addDomainSuffix (addDomainSuffix t s v1).2 s v2).1 = none
    ∧ findMatchDomainSuffixPayload (addDomainSuffix (addDomainSuffix t s v1).2 s v2).2 s
        = some v2 := by
  refine ⟨by simp [addDomainSuffix, hs], by simp [addDomainSuffix, hs], ?_⟩
  have hrw : (addDomainSuffix (addDomainSuffix t s v1).2 s v2).2
      = insertLabels (insertLabels t (splitDot s).reverse v1) (splitDot s).reverse v2 := by
    simp [addDomainSuffix, hs]
  have hv : payloadAt (insertLabels (insertLabels t (splitDot s).reverse v1)
      (splitDot s).reverse v2) (splitDot s).reverse = some (some v2) := by
    rw [payloadAt_insertLabels]; simp
  obtain ⟨n, hn⟩ : ∃ n, nodeAt (insertLabels (insertLabels t (splitDot s).reverse v1)
      (splitDot s).reverse v2) (splitDot s).reverse = some n := by
    cases hnn : nodeAt (insertLabels (insertLabels t (splitDot s).reverse v1)
        (splitDot s).reverse v2) (splitDot s).reverse with
    | none => rw [payloadAt, hnn] at hv; simp at hv
    | some n => exact ⟨n, rfl⟩
  have hf := findLabels_of_nodeAt hn
  rw [findMatchDomainSuffixPayload, findMatchDomainSuffixNode, hrw, hf]
  rw [payloadAt, hn] at hv
  exact Option.some.inj hv

/-- Witness for C5: overwrite at google.com. -/
theorem claim_C5_overwrite_witness :
    (addDomainSuffix (newDomainSuffixTrie String) "google.com".data "A").1 = none
    ∧ (addDomainSuffix (addDomainSuffix (newDomainSuffixTrie String) "google.com".data
        "A").2 "google.com".data "B").1 = none
    ∧ findMatchDomainSuffixPayload (addDomainSuffix (addDomainSuffix
        (newDomainSuffixTrie String) "google.com".data "A").2 "google.com".data "B").2
        "google.com".data = some "B" :=
  claim_C5_overwrite (newDomainSuffixTrie String) "google.com".data "A" "B" (by decide)

/-- C6 fails as stated: the suffix a..b is successfully inserted, yet the
path reconstructed from the node matched on the query a..b is a, because
the upward walk of `GetNodeTriePath` stops at the empty middle label. -/
theorem claim_C6_counterexample :
    (addDomainSuffix (newDomainSuffixTrie String) "a..b".data "X").1 = none
    ∧ getNodeTriePath
        (findMatchDomainSuffixNode
          (addDomainSuffix (newDomainSuffixTrie String) "a..b".data "X").2 "a..b".data).1
      = "a".data
    ∧ "a".data ≠ "a..b".data := by
  refine ⟨by decide, by decide, by decide⟩

/-- C6 amended: for every successfully inserted suffix all of whose
dot-separated labels are non-empty, the node returned by a match on
exactly that suffix reconstructs the suffix via `GetNodeTriePath`. -/
theorem claim_C6_path_roundtrip_amended {T : Type} (t : DomainSuffixTrieNode T) (s : GoStr)
    (v : T) (hs : s ≠ []) (hlab : ∀ l ∈ splitDot s, l ≠ []) :
    getNodeTriePath (findMatchDomainSuffixNode (addDomainSuffix t s v).2 s).1 = s := by
  have hrw : (addDomainSuffix t s v).2 = insertLabels t (splitDot s).reverse v := by
    simp [addDomainSuffix, hs]
  have hv : payloadAt (insertLabels t (splitDot s).reverse v) (splitDot s).reverse
      = some (some v) := by
    rw [payloadAt_insertLabels]; simp
  obtain ⟨n, hn⟩ : ∃ n, nodeAt (insertLabels t (splitDot s).reverse v)
      (splitDot s).reverse = some n := by
    cases hnn : nodeAt (insertLabels t (splitDot s).reverse v) (splitDot s).reverse with
    | none => rw [payloadAt, hnn] at hv; simp at hv
    | some n => exact ⟨n, rfl⟩
  have hf := findLabels_of_nodeAt hn
  rw [findMatchDomainSuffixNode, hrw, hf]
  show getNodeTriePath (splitDot s).reverse = s
  rw [getNodeTriePath, List.reverse_reverse]
  have htw : (splitDot s).takeWhile (fun l => !l.isEmpty) = splitDot s := by
    apply List.takeWhile_eq_self_iff.mpr
    intro x hx
    have := hlab x hx
    simp [List.isEmpty_iff, this]
  rw [htw, joinDot_splitDot]

/-- Witness for C6 amended at google.com. -/
theorem claim_C6_path_roundtrip_amended_witness :
    getNodeTriePath
      (findMatchDomainSuffixNode
        (addDomainSuffix (newDomainSuffixTrie String) "google.com".data "V").2
        "google.com".data).1 = "google.com".data :=
  claim_C6_path_roundtrip_amended (newDomainSuffixTrie String) "google.com".data "V"
    (by decide) (by decide)

/-- C9 (insertion-order independence): for two distinct non-empty
suffixes, inserting them in either order produces trees on which every
match returns the node at the same path, and every payload query returns
the same value. -/
theorem claim_C9_insert_comm {T : Type} (t : DomainSuffixTrieNode T) (s1 s2 : GoStr)
    (v1 v2 : T) (h1 : s1 ≠ []) (h2 : s2 ≠ []) (hne : s1 ≠ s2) (q : GoStr) :
    (findMatchDomainSuffixNode (addDomainSuffix (addDomainSuffix t s1 v1).2 s2 v2).2 q).1
      = (findMatchDomainSuffixNode (addDomainSuffix (addDomainSuffix t s2 v2).2 s1 v1).2 q).1
    ∧ findMatchDomainSuffixPayload (addDomainSuffix (addDomainSuffix t s1 v1).2 s2 v2).2 q
      = findMatchDomainSuffixPayload (addDomainSuffix (addDomainSuffix t s2 v2).2 s1 v1).2
          q := by
  have hp : (splitDot s1).reverse ≠ (splitDot s2).reverse := by
    intro he
    exact hne (splitDot_injective (List.reverse_injective he))
  have hrwA : (addDomainSuffix (addDomainSuffix t s1 v1).2 s2 v2).2
      = insertLabels (insertLabels t (splitDot s1).reverse v1) (splitDot s2).reverse v2 := by
    simp [addDomainSuffix, h1, h2]
  have hrwB : (addDomainSuffix (addDomainSuffix t s2 v2).2 s1 v1).2
      = insertLabels (insertLabels t (splitDot s2).reverse v2) (splitDot s1).reverse v1 := by
    simp [addDomainSuffix, h1, h2]
  have hpay := payloadAt_insert_insert_comm t (splitDot s1).reverse (splitDot s2).reverse
    v1 v2 hp
  have hsome : ∀ r : List GoStr,
      (nodeAt (insertLabels (insertLabels t (splitDot s1).reverse v1)
        (splitDot s2).reverse v2) r).isSome
      = (nodeAt (insertLabels (insertLabels t (splitDot s2).reverse v2)
        (splitDot s1).reverse v1) r).isSome := by
    intro r
    rw [← payloadAt_isSome, ← payloadAt_isSome, hpay r]
  have hpath := findLabels_path_congr _ _ hsome (splitDot q).reverse
  constructor
  · rw [findMatchDomainSuffixNode, findMatchDomainSuffixNode, hrwA, hrwB]
    exact hpath
  · rw [findMatchDomainSuffixPayload, findMatchDomainSuffixPayload,
      findMatchDomainSuffixNode, findMatchDomainSuffixNode, hrwA, hrwB]
    have hA := payload_of_findLabels (insertLabels (insertLabels t (splitDot s1).reverse v1)
      (splitDot s2).reverse v2) (splitDot q).reverse
    have hB := payload_of_findLabels (insertLabels (insertLabels t (splitDot s2).reverse v2)
      (splitDot s1).reverse v1) (splitDot q).reverse
    rw [hpath] at hA
    rw [← hpay _] at hB
    rw [← hB] at hA
    exact Option.some.inj hA

/-- Witness for C9: google.com and baidu.com in both orders, queried at
x.google.com. -/
theorem claim_C9_insert_comm_witness :
    (findMatchDomainSuffixNode (addDomainSuffix (addDomainSuffix
        (newDomainSuffixTrie String) "google.com".data "G").2 "baidu.com".data "B").2
        "x.google.com".data).1
      = (findMatchDomainSuffixNode (addDomainSuffix (addDomainSuffix
        (newDomainSuffixTrie String) "baidu.com".data "B").2 "google.com".data "G").2
        "x.google.com".data).1
    ∧ findMatchDomainSuffixPayload (addDomainSuffix (addDomainSuffix
        (newDomainSuffixTrie String) "google.com".data "G").2 "baidu.com".data "B").2
        "x.google.com".data
      = findMatchDomainSuffixPayload (addDomainSuffix (addDomainSuffix
        (newDomainSuffixTrie String) "baidu.com".data "B").2 "google.com".data "G").2
        "x.google.com".data :=
  claim_C9_insert_comm (newDomainSuffixTrie String) "google.com".data "baidu.com".data
    "G" "B" (by decide) (by decide) (by decide) "x.google.com".data

theorem listGetD_set {A : Type} (l : List A) (n r : Nat) (x d : A) :
    (l.set n x).getD r d = if r = n ∧ n < l.length then x else l.getD r d := by
  induction l generalizing n r with
  | nil => simp
  | cons a l ih =>
    cases n with
    | zero =>
      cases r with
      | zero => simp [List.set]
      | succ r' => simp [List.set]
    | succ n' =>
      cases r with
      | zero => simp [List.set]
      | succ r' =>
        simp only [List.set, List.getD_cons_succ, ih, List.length_cons]
        have hiff : (r' = n' ∧ n' < l.length) ↔ (r' + 1 = n' + 1 ∧ n' + 1 < l.length + 1) := by
          omega
        by_cases hc : r' = n' ∧ n' < l.length
        · rw [if_pos hc, if_pos (hiff.mp hc)]
        · rw [if_neg hc, if_neg (fun hh => hc (hiff.mpr hh))]

theorem listGetD_append {A : Type} (l1 l2 : List A) (r : Nat) (d : A) :
    (l1 ++ l2).getD r d
      = if r < l1.length then l1.getD r d else l2.getD (r - l1.length) d := by
  induction l1 generalizing r with
  | nil => simp
  | cons a l1 ih =>
    cases r with
    | zero => simp
    | succ r' =>
      simp only [List.cons_append, List.getD_cons_succ, ih, List.length_cons]
      have hiff : r' < l1.length ↔ r' + 1 < l1.length + 1 := by omega
      by_cases hc : r' < l1.length
      · rw [if_pos hc, if_pos (hiff.mp hc)]
      · rw [if_neg hc, if_neg (fun hh => hc (hiff.mpr hh)), Nat.succ_sub_succ]

theorem getNode_hSetPayload {T : Type} (h : Heap T) (n r : Nat) (v : T) :
    getNode (hSetPayload h n v) r
      = if r = n ∧ n < h.nodes.length then { getNode h r with payload := some v }
        else getNode h r := by
  show (h.nodes.set n { getNode h n with payload := some v }).getD r default = _
  rw [listGetD_set]
  by_cases hc : r = n ∧ n < h.nodes.length
  · obtain ⟨he, hl⟩ := hc
    subst he
    simp [hl, getNode]
  · simp [hc, getNode]

theorem childrenRef_hSetPayload {T : Type} (h : Heap T) (n r : Nat) (v : T) :
    (getNode (hSetPayload h n v) r).childrenRef = (getNode h r).childrenRef := by
  rw [getNode_hSetPayload]
  by_cases hc : r = n ∧ n < h.nodes.length
  · rw [if_pos hc]
  · rw [if_neg hc]

/-- The heap find loop only reads children references and map contents:
two heaps agreeing on those (below a bound covering every reachable map
reference) give the same match result. -/
theorem hFindFrom_congr {T : Type} (h1 h2 : Heap T) (N : Nat)
    (hcr : ∀ r, (getNode h1 r).childrenRef = (getNode h2 r).childrenRef)
    (hm : ∀ i, i < N → getMap h1 i = getMap h2 i)
    (hwf : ∀ r, (getNode h2 r).childrenRef < N) :
    ∀ (labels : List GoStr) (root : Nat), hFindFrom h1 root labels = hFindFrom h2 root labels := by
  intro labels
  induction labels with
  | nil => intro root; rfl
  | cons l rest ih =>
    intro root
    have hml : mapLookup h1 (getNode h1 root).childrenRef l
        = mapLookup h2 (getNode h2 root).childrenRef l := by
      rw [mapLookup, mapLookup, hcr root, hm _ (hwf root)]
    cases hc : mapLookup h2 (getNode h2 root).childrenRef l with
    | some c =>
      have h1c : mapLookup h1 (getNode h1 root).childrenRef l = some c := by rw [hml, hc]
      simp only [hFindFrom, h1c, hc]
      exact ih c
    | none =>
      have h1c : mapLookup h1 (getNode h1 root).childrenRef l = none := by rw [hml, hc]
      simp only [hFindFrom, h1c, hc]

/-- In a well-formed heap (all stored children references in range, at
least one map allocated) even dangling node pointers dereference to a
node whose children reference is in range. -/
theorem heapWf_deref {T : Type} (h : Heap T)
    (hwfB : ∀ nd ∈ h.nodes, nd.childrenRef < h.maps.length)
    (hlen : 0 < h.maps.length) :
    ∀ r, (getNode h r).childrenRef < h.maps.length := by
  intro r
  by_cases hr : r < h.nodes.length
  · rw [getNode, List.getD_eq_getElem _ _ hr]
    exact hwfB _ (List.getElem_mem hr)
  · rw [getNode, List.getD_eq_default _ _ (Nat.le_of_not_lt hr)]
    exact hlen

/-- C10 (shallow copy): the map returned by the core `GetChildrenNodeMap`
holds the tree's actual node pointers — (i) its entries are exactly the
entries of the node's own map; (ii) writing into the returned map object
changes no subsequent match result or payload observation on the tree;
(iii) calling `SetPayload` on a node obtained from the returned map
changes the value observed by a match that reaches that node. -/
theorem claim_C10_shallow_copy {T : Type} (h : Heap T) (root nref : Nat) (q k : GoStr)
    (v : T)
    (hwfB : ∀ nd ∈ h.nodes, nd.childrenRef < h.maps.length)
    (hlen : 0 < h.maps.length)
    (hfound : assocGet (getMap (hGetChildrenNodeMapCore h root).1
        (hGetChildrenNodeMapCore h root).2) k = some nref)
    (hn : nref < h.nodes.length)
    (hmatch : hFindMatchDomainSuffixNode h root q = nref) :
    assocGet (getMap h (getNode h root).childrenRef) k = some nref
    ∧ (∀ (k2 : GoStr) (r2 : Nat) (q2 : GoStr),
        hFindMatchDomainSuffixNode (hMapSet (hGetChildrenNodeMapCore h root).1
            (hGetChildrenNodeMapCore h root).2 k2 r2) root q2
          = hFindMatchDomainSuffixNode h root q2
        ∧ hFindMatchDomainSuffixPayload (hMapSet (hGetChildrenNodeMapCore h root).1
            (hGetChildrenNodeMapCore h root).2 k2 r2) root q2
          = hFindMatchDomainSuffixPayload h root q2)
    ∧ hFindMatchDomainSuffixPayload (hSetPayload (hGetChildrenNodeMapCore h root).1 nref v)
        root q = some v := by
  have hwf := heapWf_deref h hwfB hlen
  have hGm : getMap (hGetChildrenNodeMapCore h root).1 (hGetChildrenNodeMapCore h root).2
      = getMap h (getNode h root).childrenRef := by
    show (h.maps ++ [getMap h (getNode h root).childrenRef]).getD h.maps.length [] = _
    rw [listGetD_append]
    simp
  have hCopyMaps : ∀ i, i < h.maps.length →
      getMap (hGetChildrenNodeMapCore h root).1 i = getMap h i := by
    intro i hi
    show (h.maps ++ [getMap h (getNode h root).childrenRef]).getD i [] = _
    rw [listGetD_append, if_pos hi]
    rfl
  refine ⟨by rw [← hGm]; exact hfound, ?_, ?_⟩
  · intro k2 r2 q2
    have hgn : ∀ r, getNode (hMapSet (hGetChildrenNodeMapCore h root).1
        (hGetChildrenNodeMapCore h root).2 k2 r2) r = getNode h r := by
      intro r; rfl
    have hmm : ∀ i, i < h.maps.length →
        getMap (hMapSet (hGetChildrenNodeMapCore h root).1
          (hGetChildrenNodeMapCore h root).2 k2 r2) i = getMap h i := by
      intro i hi
      show ((h.maps ++ [getMap h (getNode h root).childrenRef]).set h.maps.length _).getD i []
        = _
      rw [listGetD_set]
      have hne : ¬ (i = h.maps.length ∧
          h.maps.length < (h.maps ++ [getMap h (getNode h root).childrenRef]).length) := by
        intro hcc; omega
      rw [if_neg hne, listGetD_append, if_pos hi]
      rfl
    have hfind := hFindFrom_congr _ h h.maps.length
      (fun r => by rw [hgn r]) hmm hwf
    refine ⟨hfind (splitDot q2).reverse root, ?_⟩
    rw [hFindMatchDomainSuffixPayload, hFindMatchDomainSuffixPayload,
      hFindMatchDomainSuffixNode, hFindMatchDomainSuffixNode,
      hfind (splitDot q2).reverse root, hgn]
  · have hwfCopy : ∀ r, (getNode (hGetChildrenNodeMapCore h root).1 r).childrenRef
        < h.maps.length := by
      intro r
      exact hwf r
    have hstep1 := hFindFrom_congr (hSetPayload (hGetChildrenNodeMapCore h root).1 nref v)
      (hGetChildrenNodeMapCore h root).1 h.maps.length
      (fun r => childrenRef_hSetPayload _ nref r v)
      (fun i _ => rfl) hwfCopy
    have hstep2 := hFindFrom_congr (hGetChildrenNodeMapCore h root).1 h h.maps.length
      (fun r => rfl) hCopyMaps hwf
    have hres : hFindMatchDomainSuffixNode
        (hSetPayload (hGetChildrenNodeMapCore h root).1 nref v) root q = nref := by
      rw [hFindMatchDomainSuffixNode, hstep1 (splitDot q).reverse root,
        hstep2 (splitDot q).reverse root]
      exact hmatch
    rw [hFindMatchDomainSuffixPayload, hres, getNode_hSetPayload]
    have hcc : nref = nref ∧ nref < (hGetChildrenNodeMapCore h root).1.nodes.length := by
      exact ⟨rfl, hn⟩
    rw [if_pos hcc]

/-- Witness for C10 on a tree holding google.com: the copied root map's
com entry is node 1, and `SetPayload` on node 1 through that entry is
observed by a match on com. -/
theorem claim_C10_shallow_copy_witness :
    assocGet (getMap (hAddDomainSuffix (hNewTrie String) 0 "google.com".data "G").2
        (getNode (hAddDomainSuffix (hNewTrie String) 0 "google.com".data "G").2
          0).childrenRef) "com".data = some 1
    ∧ hFindMatchDomainSuffixPayload
        (hSetPayload (hGetChildrenNodeMapCore
          (hAddDomainSuffix (hNewTrie String) 0 "google.com".data "G").2 0).1 1 "Z")
        0 "com".data = some "Z" :=
  ⟨(claim_C10_shallow_copy (hAddDomainSuffix (hNewTrie String) 0 "google.com".data "G").2
      0 1 "com".data "com".data "Z" (by decide) (by decide) (by decide) (by decide)
      (by decide)).1,
   (claim_C10_shallow_copy (hAddDomainSuffix (hNewTrie String) 0 "google.com".data "G").2
      0 1 "com".data "com".data "Z" (by decide) (by decide) (by decide) (by decide)
      (by decide)).2.2⟩

/-- C7 fails on the synchronized wrapper: its `GetChildrenNodeMap` hands
out the tree's own map object, so replacing the com entry through the
returned map changes the result of a subsequent match (here from G to the
absent value), while the same mutation through the core's copied map
leaves the match intact. -/
theorem claim_C7_sync_getChildren_not_copy :
    hFindMatchDomainSuffixPayload
        (hAddDomainSuffix (hNewTrie String) 0 "google.com".data "G").2 0 "google.com".data
      = some "G"
    ∧ hFindMatchDomainSuffixPayload
        (hMapSet (hAddDomainSuffix (hNewTrie String) 0 "google.com".data "G").2
          (hGetChildrenNodeMapSync
            (hAddDomainSuffix (hNewTrie String) 0 "google.com".data "G").2 0)
          "com".data 0)
        0 "google.com".data = none
    ∧ hFindMatchDomainSuffixPayload
        (hMapSet (hGetChildrenNodeMapCore
            (hAddDomainSuffix (hNewTrie String) 0 "google.com".data "G").2 0).1
          (hGetChildrenNodeMapCore
            (hAddDomainSuffix (hNewTrie String) 0 "google.com".data "G").2 0).2
          "com".data 0)
        0 "google.com".data = some "G" := by
  refine ⟨by decide, by decide, by decide⟩

/-- C8 fails as stated: `GetNodeTriePath` is a public wrapper method whose
body performs no lock operation at all, so not every public operation
acquires the wrapper's lock. -/
theorem claim_C8_counterexample :
    ("GetNodeTriePath", ([] : List LockEvent)) ∈ syncPublicMethods
    ∧ ([] : List LockEvent) ≠ lockPattern LockMode.readMode
    ∧ ([] : List LockEvent) ≠ lockPattern LockMode.writeMode
    ∧ ¬ (∀ p ∈ syncPublicMethods,
          p.2 = lockPattern (if p.1 = "AddDomainSuffix" ∨ p.1 = "SetPayload"
                             then LockMode.writeMode else LockMode.readMode)) := by
  refine ⟨by decide, by decide, by decide, by decide⟩

/-- C8 amended: every public wrapper method except `GetNodeTriePath`
acquires the single whole-tree RWMutex around its delegation and releases
it on return — `AddDomainSuffix` and `SetPayload` in write mode, the
remaining locking methods in read mode. -/
theorem claim_C8_locking_amended :
    ∀ p ∈ syncPublicMethods, p.1 ≠ "GetNodeTriePath" →
      p.2 = lockPattern (if p.1 = "AddDomainSuffix" ∨ p.1 = "SetPayload"
                         then LockMode.writeMode else LockMode.readMode) := by
  decide

/-- Witness for C8 amended at the write-mode method `AddDomainSuffix`. -/
theorem claim_C8_locking_amended_witness :
    ("AddDomainSuffix", lockPattern LockMode.writeMode) ∈ syncPublicMethods
    ∧ lockPattern LockMode.writeMode
      = lockPattern (if ("AddDomainSuffix" : String) = "AddDomainSuffix"
            ∨ ("AddDomainSuffix" : String) = "SetPayload"
          then LockMode.writeMode else LockMode.readMode) :=
  ⟨by decide,
   claim_C8_locking_amended ("AddDomainSuffix", lockPattern LockMode.writeMode) (by decide)
     (by decide)⟩

example : splitDot "a.b".data = ["a".data, "b".data] := by decide
example : splitDot "".data = [[]] := by decide
example : splitDot "a..b".data = ["a".data, [], "b".data] := by decide
example : joinDot ["api".data, "google".data, "com".data] = "api.google.com".data := by decide

end DomainSuffixTrie
